import Mathlib

/-!
# Verification of the agent-deck session activity-state engine

Shallow embedding of `internal/tmux`'s session state machine
(`GetStatus`, `AcknowledgeWithSnapshot`, `Acknowledge`, `ResetAcknowledged`,
`ReconnectSessionWithStatus`, `DetectTool`, `normalizeContent`, `hashContent`)
into Lean, together with theorems settling the frozen claims about it.

Modelling conventions:
* Go `time.Time` / `time.Duration` are modelled as `Int` nanoseconds; every
  operation that calls `time.Now()` takes the current instant as an explicit
  `now : Int` parameter.
* Go strings are modelled as Lean `String`; the character-level pipeline of
  `normalizeContent` is defined on `List Char` and lifted.
* `crypto/sha256` + `encoding/hex` (`hashContent`) are implemented bit-faithfully
  on `Nat` with explicit `% 2^32` wraparound.
* Subprocess interaction (`Exists`, `CapturePane`) is modelled by a `Capture`
  input describing the observed outcome of the external tmux calls.
-/

namespace AgentDeck

/-! ## SHA-256 (`crypto/sha256` + `encoding/hex`), used by `hashContent` -/

/-- Truncation to a 32-bit word. -/
def w32 (n : Nat) : Nat := n % 4294967296

/-- 32-bit rotate right. -/
def rotr32 (x n : Nat) : Nat := w32 ((x >>> n) ||| (x <<< (32 - n)))

def bigSigma0 (x : Nat) : Nat := (rotr32 x 2) ^^^ (rotr32 x 13) ^^^ (rotr32 x 22)

def bigSigma1 (x : Nat) : Nat := (rotr32 x 6) ^^^ (rotr32 x 11) ^^^ (rotr32 x 25)

def smallSigma0 (x : Nat) : Nat := (rotr32 x 7) ^^^ (rotr32 x 18) ^^^ (x >>> 3)

def smallSigma1 (x : Nat) : Nat := (rotr32 x 17) ^^^ (rotr32 x 19) ^^^ (x >>> 10)

def chFn (x y z : Nat) : Nat := (x &&& y) ^^^ ((x ^^^ 4294967295) &&& z)

def majFn (x y z : Nat) : Nat := (x &&& y) ^^^ (x &&& z) ^^^ (y &&& z)

/-- The 64 SHA-256 round constants (FIPS 180-4), in decimal. -/
def sha256K : List Nat :=
  [1116352408, 1899447441, 3049323471, 3921009573, 961987163, 1508970993,
   2453635748, 2870763221, 3624381080, 310598401, 607225278, 1426881987,
   1925078388, 2162078206, 2614888103, 3248222580, 3835390401, 4022224774,
   264347078, 604807628, 770255983, 1249150122, 1555081692, 1996064986,
   2554220882, 2821834349, 2952996808, 3210313671, 3336571891, 3584528711,
   113926993, 338241895, 666307205, 773529912, 1294757372, 1396182291,
   1695183700, 1986661051, 2177026350, 2456956037, 2730485921, 2820302411,
   3259730800, 3345764771, 3516065817, 3600352804, 4094571909, 275423344,
   430227734, 506948616, 659060556, 883997877, 958139571, 1322822218,
   1537002063, 1747873779, 1955562222, 2024104815, 2227730452, 2361852424,
   2428436474, 2756734187, 3204031479, 3329325298]

/-- The eight 32-bit working variables of SHA-256. -/
structure Sha8 where
  a : Nat
  b : Nat
  c : Nat
  d : Nat
  e : Nat
  f : Nat
  g : Nat
  h : Nat
  deriving Repr, DecidableEq

def sha256Init : Sha8 :=
  ⟨1779033703, 3144134277, 1013904242, 2773480762, 1359893119, 2600822924, 528734635, 1541459225⟩

/-- One SHA-256 round; `kw` is the round constant already added to the schedule word. -/
def sha256Round (st : Sha8) (kw : Nat) : Sha8 :=
  let t1 := w32 (st.h + bigSigma1 st.e + chFn st.e st.f st.g + kw)
  let t2 := w32 (bigSigma0 st.a + majFn st.a st.b st.c)
  ⟨w32 (t1 + t2), st.a, st.b, st.c, w32 (st.d + t1), st.e, st.f, st.g⟩

/-- Extend the (reversed, most-recent-first) message schedule by `n` words. -/
def extendSched : Nat → List Nat → List Nat
  | 0, acc => acc
  | n + 1, acc =>
    extendSched n
      (w32 (smallSigma1 (acc.getD 1 0) + acc.getD 6 0 + smallSigma0 (acc.getD 14 0) + acc.getD 15 0)
        :: acc)

/-- Big-endian packing of bytes into 32-bit words. -/
def bytesToWords : List Nat → List Nat
  | b0 :: b1 :: b2 :: b3 :: rest => (b0 * 16777216 + b1 * 65536 + b2 * 256 + b3) :: bytesToWords rest
  | _ => []

/-- Process one 64-byte block. -/
def compressBlock (st : Sha8) (block : List Nat) : Sha8 :=
  let w16 := bytesToWords block
  let sched := (extendSched 48 w16.reverse).reverse
  let kw := List.zipWith (fun k w => w32 (k + w)) sha256K sched
  let st' := kw.foldl sha256Round st
  ⟨w32 (st.a + st'.a), w32 (st.b + st'.b), w32 (st.c + st'.c), w32 (st.d + st'.d),
   w32 (st.e + st'.e), w32 (st.f + st'.f), w32 (st.g + st'.g), w32 (st.h + st'.h)⟩

/-- 64-bit big-endian encoding of the bit length. -/
def lenBytes8 (n : Nat) : List Nat :=
  [(n >>> 56) % 256, (n >>> 48) % 256, (n >>> 40) % 256, (n >>> 32) % 256,
   (n >>> 24) % 256, (n >>> 16) % 256, (n >>> 8) % 256, n % 256]

/-- SHA-256 padding: append 0x80, zeros, and the 64-bit bit length. -/
def padMessage (msg : List Nat) : List Nat :=
  let L := msg.length
  let k := (119 - (L % 64)) % 64
  msg ++ 128 :: List.replicate k 0 ++ lenBytes8 (8 * L)

/-- Split into 64-byte chunks; structural on a fuel argument (initial fuel `l.length`
is always sufficient because every step consumes at least one element). -/
def chunksGo : Nat → List Nat → List (List Nat)
  | 0, l => if l.isEmpty then [] else [l]
  | _ + 1, [] => []
  | fuel + 1, x :: rest => (x :: rest).take 64 :: chunksGo fuel ((x :: rest).drop 64)

def chunks64 (l : List Nat) : List (List Nat) := chunksGo l.length l

/-- The eight output words of SHA-256 over a byte sequence. -/
def sha256Words (msg : List Nat) : List Nat :=
  let padded := padMessage msg
  let blocks := chunks64 padded
  let st := blocks.foldl compressBlock sha256Init
  [st.a, st.b, st.c, st.d, st.e, st.f, st.g, st.h]

def hexDigitChar (n : Nat) : Char := "0123456789abcdef".toList.getD n '0'

/-- Lowercase hex of one 32-bit word (8 characters). -/
def toHex32 (n : Nat) : List Char :=
  [hexDigitChar ((n >>> 28) % 16), hexDigitChar ((n >>> 24) % 16),
   hexDigitChar ((n >>> 20) % 16), hexDigitChar ((n >>> 16) % 16),
   hexDigitChar ((n >>> 12) % 16), hexDigitChar ((n >>> 8) % 16),
   hexDigitChar ((n >>> 4) % 16), hexDigitChar (n % 16)]

def sha256hexOfBytes (msg : List Nat) : String := (((sha256Words msg).map toHex32).flatten).asString

/-- UTF-8 encoding of one scalar value (Go `[]byte(string)` semantics). -/
def utf8EncodeChar (c : Char) : List Nat :=
  let n := c.toNat
  if n < 128 then [n]
  else if n < 2048 then [192 + n / 64, 128 + n % 64]
  else if n < 65536 then [224 + n / 4096, 128 + (n / 64) % 64, 128 + n % 64]
  else [240 + n / 262144, 128 + (n / 4096) % 64, 128 + (n / 64) % 64, 128 + n % 64]

def utf8Bytes (s : String) : List Nat := (s.toList.map utf8EncodeChar).flatten

/-- `hashContent` from the source: SHA-256 of the content, hex-encoded. -/
def hashContent (content : String) : String := sha256hexOfBytes (utf8Bytes content)

/-! ## Content normalization (`normalizeContent` and its helpers)

Strings are processed as `List Char`. The two `regexp.ReplaceAllString` calls
are embedded as direct scanners implementing Go's leftmost-first semantics for
the two concrete patterns. -/

/-- Parsing modes for ANSI escape sequences. -/
inductive AnsiMode where
  | text
  | esc
  | csi
  | osc
  deriving Repr, DecidableEq

/-- CSI final byte: `0x40`–`0x7E`. -/
def isCSIFinal (c : Char) : Bool := 64 ≤ c.toNat && c.toNat ≤ 126

/-- C1 control code: `0x80`–`0x9F`. -/
def isC1Code (c : Char) : Bool := 128 ≤ c.toNat && c.toNat ≤ 159

/-- Modelled from the spec: `StripANSI` is referenced by `normalizeContent` and
`DetectTool` but its definition is not under `src/`. Per the spec it strips
CSI sequences (`ESC [ … final-byte`), OSC sequences (`ESC ] … BEL`) and C1
control codes. A lone `ESC` that introduces no such sequence is left in place
(it is removed by `stripControlChars` right after in `normalizeContent`). -/
def stripAnsiGo : AnsiMode → List Char → List Char
  | .text, [] => []
  | .text, c :: rest =>
    if c = '\x1b' then stripAnsiGo .esc rest
    else if isC1Code c then stripAnsiGo .text rest
    else c :: stripAnsiGo .text rest
  | .esc, [] => ['\x1b']
  | .esc, c :: rest =>
    if c = '[' then stripAnsiGo .csi rest
    else if c = ']' then stripAnsiGo .osc rest
    else '\x1b' ::
      (if c = '\x1b' then stripAnsiGo .esc rest
       else if isC1Code c then stripAnsiGo .text rest
       else c :: stripAnsiGo .text rest)
  | .csi, [] => []
  | .csi, c :: rest => if isCSIFinal c then stripAnsiGo .text rest else stripAnsiGo .csi rest
  | .osc, [] => []
  | .osc, c :: rest => if c = '\x07' then stripAnsiGo .text rest else stripAnsiGo .osc rest

/-- Modelled from the spec: string-level `StripANSI`. -/
def stripANSI (s : String) : String := (stripAnsiGo .text s.toList).asString

/-- The keep-predicate of `stripControlChars`: printable (`≥ 32`, not DEL),
or TAB / LF / CR. -/
def keepChar (c : Char) : Bool := (32 ≤ c.toNat && c.toNat ≠ 127) || c = '\t' || c = '\n' || c = '\r'

/-- `stripControlChars` from the source. -/
def stripControlChars (l : List Char) : List Char := l.filter keepChar

/-- The ten braille spinner glyphs stripped by `normalizeContent`. -/
def spinnerChars : List Char := ['⠋', '⠙', '⠹', '⠸', '⠼', '⠴', '⠦', '⠧', '⠇', '⠏']

/-- The sequential `strings.ReplaceAll(result, string(r), "")` loop over
`spinnerChars`; removing all occurrences of a single character is a filter. -/
def stripSpinners (l : List Char) : List Char :=
  spinnerChars.foldl (fun acc r => acc.filter (fun c => c ≠ r)) l

/-- Go `\d`. -/
def isGoDigit (c : Char) : Bool := '0' ≤ c && c ≤ '9'

/-- Go `\s` (RE2): `[\t\n\f\r ]`. -/
def isGoSpace (c : Char) : Bool := c = ' ' || c = '\t' || c = '\n' || c = '\x0c' || c = '\r'

/-- Substring test on character lists (Go `strings.Contains`). -/
def containsSub : List Char → List Char → Bool
  | [], needle => needle.isEmpty
  | c :: t, needle => needle.isPrefixOf (c :: t) || containsSub t needle

/-- Does the body (the run between `(` and the first `)`) match
`[^)]*\d+s\s*·[^)]*tokens[^)]*` when started exactly here:
a nonempty digit run, then `s`, spaces, `·`, and `tokens` somewhere after. -/
def dynTailMatches (l : List Char) : Bool :=
  match l with
  | [] => false
  | c :: _ =>
    isGoDigit c &&
      (match l.dropWhile isGoDigit with
       | 's' :: rest =>
         match rest.dropWhile isGoSpace with
         | '·' :: rest2 => containsSub rest2 "tokens".toList
         | _ => false
       | _ => false)

/-- Existential match of `[^)]*\d+s\s*·[^)]*tokens[^)]*` over a `)`-free body. -/
def bodyMatches : List Char → Bool
  | [] => false
  | c :: rest => dynTailMatches (c :: rest) || bodyMatches rest

/-- Split off the run up to (and excluding) the first `)`, returning it together
with the remainder after that `)`; `none` when no `)` exists. -/
def splitAtClose? : List Char → Option (List Char × List Char)
  | [] => none
  | c :: r =>
    if c = ')' then some ([], r)
    else
      match splitAtClose? r with
      | some (b, rest) => some (c :: b, rest)
      | none => none

/-- Scanner for `dynamicStatusPattern.ReplaceAllString(result, "(STATUS)")` with
pattern `\([^)]*\d+s\s*·[^)]*tokens[^)]*\)`. Every match begins at a `(` and — all
inner pieces being `)`-free — extends exactly to the first following `)`, so
leftmost-first replacement is: at each `(`, test the body up to the first `)`;
on success emit `(STATUS)` and resume after the `)`. Structural on fuel; the
initial fuel `l.length` is always sufficient (each step consumes ≥ 1 character),
and the fuel-0 fallback returns the remaining input unchanged. -/
def dynamicGo : Nat → List Char → List Char
  | 0, l => l
  | _ + 1, [] => []
  | fuel + 1, c :: rest =>
    if c = '(' then
      match splitAtClose? rest with
      | some (body, after) =>
        if bodyMatches body then "(STATUS)".toList ++ dynamicGo fuel after
        else c :: dynamicGo fuel rest
      | none => c :: dynamicGo fuel rest
    else c :: dynamicGo fuel rest

def dynamicReplaceL (l : List Char) : List Char := dynamicGo l.length l

/-- Consume up to and including the first `(`. -/
def dropToParen? : List Char → Option (List Char)
  | [] => none
  | c :: r => if c = '(' then some r else dropToParen? r

/-- Consume up to and including the first `)`. -/
def dropToClose? : List Char → Option (List Char)
  | [] => none
  | c :: r => if c = ')' then some r else dropToClose? r

/-- Try to match `lit[^(]*\([^)]*\)` at the head of `l`; returns the remainder
after the match. `[^(]*` forces `\(` onto the first following `(`, and `[^)]*`
forces `\)` onto the first following `)`. -/
def matchLitAt (lit : List Char) (l : List Char) : Option (List Char) :=
  if lit.isPrefixOf l then
    match dropToParen? (l.drop lit.length) with
    | some r1 => dropToClose? r1
    | none => none
  else none

/-- Try to match `(Thinking|Connecting)[^(]*\([^)]*\)` at the head of `l`,
returning the captured literal and the remainder after the match. -/
def matchThinkAt (l : List Char) : Option (List Char × List Char) :=
  match matchLitAt "Thinking".toList l with
  | some rest => some ("Thinking".toList, rest)
  | none =>
    match matchLitAt "Connecting".toList l with
    | some rest => some ("Connecting".toList, rest)
    | none => none

/-- Scanner for `thinkingPattern.ReplaceAllString(result, "$1...")` with pattern
`(Thinking|Connecting)[^(]*\([^)]*\)`: leftmost-first replacement emitting the
captured literal followed by `...`. Structural on fuel; the initial fuel
`l.length` is always sufficient (each step consumes ≥ 1 character). -/
def thinkingGo : Nat → List Char → List Char
  | 0, l => l
  | _ + 1, [] => []
  | fuel + 1, c :: rest =>
    match matchThinkAt (c :: rest) with
    | some (lit, after) => lit ++ '.' :: '.' :: '.' :: thinkingGo fuel after
    | none => c :: thinkingGo fuel rest

def thinkingReplaceL (l : List Char) : List Char := thinkingGo l.length l

/-- Trailing whitespace trimmed per line: space and TAB. -/
def isTrimWS (c : Char) : Bool := c = ' ' || c = '\t'

/-- `strings.TrimRight(line, " \t")`. -/
def trimRightL (l : List Char) : List Char := (l.reverse.dropWhile isTrimWS).reverse

/-- `strings.Split(s, "\n")`. -/
def splitNl : List Char → List (List Char)
  | [] => [[]]
  | c :: rest =>
    if c = '\n' then [] :: splitNl rest
    else
      match splitNl rest with
      | p :: ps => (c :: p) :: ps
      | [] => [[c]]

/-- `strings.Join(lines, "\n")`. -/
def joinNl : List (List Char) → List Char
  | [] => []
  | [p] => p
  | p :: q :: ps => p ++ '\n' :: joinNl (q :: ps)

/-- The per-line `TrimRight` loop of `normalizeContent`. -/
def trimLinesL (l : List Char) : List Char := joinNl ((splitNl l).map trimRightL)

def emitNl (n : Nat) : List Char := List.replicate (min n 2) '\n'

/-- Scanner for `normalizeBlankLines`: regex `\n{3,}` → `"\n\n"`, i.e. every
maximal run of `n ≥ 3` newlines is replaced by two. `n` counts pending newlines. -/
def collapseGo : Nat → List Char → List Char
  | n, [] => emitNl n
  | n, c :: rest =>
    if c = '\n' then collapseGo (n + 1) rest
    else emitNl n ++ c :: collapseGo 0 rest

/-- `normalizeBlankLines` from the source. -/
def collapseNlL (l : List Char) : List Char := collapseGo 0 l

/-- `normalizeContent` from the source, on character lists: strip ANSI, strip
control characters, strip spinner glyphs, replace the dynamic status counter,
replace thinking/connecting headers, trim trailing per-line whitespace, and
collapse runs of blank lines. -/
def normalizeContentL (l : List Char) : List Char :=
  collapseNlL (trimLinesL (thinkingReplaceL (dynamicReplaceL
    (stripSpinners (stripControlChars (stripAnsiGo .text l))))))

/-- `normalizeContent` from the source (the Go method ignores its receiver). -/
def normalizeContent (s : String) : String := (normalizeContentL s.toList).asString

/-! ## Session data model -/

/-- `StateTracker` from the source. `lastChangeTime` is an instant in
nanoseconds; `lastContent` is the debug field updated on content change. -/
structure StateTracker where
  lastHash : String
  lastChangeTime : Int
  acknowledged : Bool
  stabilized : Bool
  lastContent : String
  deriving Repr, DecidableEq

/-- `activityCooldown = 2 * time.Second` in nanoseconds. -/
def activityCooldown : Int := 2 * 1000000000

/-- `Session` from the source. Fields that only serve the TUI/debug layers
(`promptDetector`) or synchronization (`stateTrackerMu`) are not modelled; the
session-level `lastHash`/`lastContent` pair used by `HasUpdated`/`analyzeContent`
is kept but is distinct from the tracker's. -/
structure Session where
  name : String
  displayName : String
  workDir : String
  command : String
  created : Int
  lastHash : String
  lastContent : String
  detectedTool : String
  toolDetectedAt : Int
  toolDetectExpiry : Int
  stateTracker : Option StateTracker
  lastStableStatus : String
  deriving Repr, DecidableEq

/-- Outcome of the external `Exists()` / `CapturePane()` calls a status poll
performs: the session is gone, the capture returned an error, or the capture
succeeded with the given pane content. -/
inductive Capture where
  | noSession
  | captureError
  | ok (content : String)
  deriving Repr, DecidableEq

/-- `[^a-zA-Z0-9-]` complement: characters kept by `sanitizeName`. -/
def isNameChar (c : Char) : Bool :=
  ('a' ≤ c && c ≤ 'z') || ('A' ≤ c && c ≤ 'Z') || ('0' ≤ c && c ≤ '9') || c = '-'

/-- Scanner for `regexp.MustCompile("[^a-zA-Z0-9-]+").ReplaceAllString(name, "-")`:
each maximal run of bad characters becomes one hyphen; the flag records whether
the previous character was inside such a run. -/
def sanitizeGo : Bool → List Char → List Char
  | _, [] => []
  | inRun, c :: rest =>
    if isNameChar c then c :: sanitizeGo false rest
    else if inRun then sanitizeGo true rest
    else '-' :: sanitizeGo true rest

/-- `sanitizeName` from the source. -/
def sanitizeName (s : String) : String := (sanitizeGo false s.toList).asString

/-- `NewSession` from the source. The 4-byte random hex suffix and `time.Now()`
are taken as parameters; all other fields get their Go zero values. -/
def newSession (name workDir uniqueSuffix : String) (now : Int) : Session :=
  { name := "agentdeck_" ++ sanitizeName name ++ "_" ++ uniqueSuffix
    displayName := name
    workDir := workDir
    command := ""
    created := now
    lastHash := ""
    lastContent := ""
    detectedTool := ""
    toolDetectedAt := 0
    toolDetectExpiry := 30 * 1000000000
    stateTracker := none
    lastStableStatus := "waiting" }

/-- `ReconnectSession` from the source. -/
def reconnectSession (tmuxName displayName workDir command : String) (now : Int) : Session :=
  { name := tmuxName
    displayName := displayName
    workDir := workDir
    command := command
    created := now
    lastHash := ""
    lastContent := ""
    detectedTool := ""
    toolDetectedAt := 0
    toolDetectExpiry := 30 * 1000000000
    stateTracker := none
    lastStableStatus := "waiting" }

/-- `ReconnectSessionWithStatus` from the source: seeds the tracker according
to the persisted previous status. -/
def reconnectSessionWithStatus (tmuxName displayName workDir command previousStatus : String)
    (now : Int) : Session :=
  let sess := reconnectSession tmuxName displayName workDir command now
  if previousStatus = "idle" then
    { sess with
      stateTracker := some
        { lastHash := ""
          lastChangeTime := now - 10 * 1000000000
          acknowledged := true
          stabilized := true
          lastContent := "" }
      lastStableStatus := "idle" }
  else if previousStatus = "waiting" then
    { sess with
      stateTracker := some
        { lastHash := ""
          lastChangeTime := now - 10 * 1000000000
          acknowledged := false
          stabilized := true
          lastContent := "" }
      lastStableStatus := "waiting" }
  else if previousStatus = "active" then
    { sess with lastStableStatus := "waiting" }
  else
    { sess with lastStableStatus := "waiting" }

/-! ## State machine operations -/

/-- `ensureStateTrackerLocked` from the source: lazily allocate the tracker
with an empty hash and an already-expired cooldown. -/
def ensureStateTracker (now : Int) (s : Session) : Session :=
  match s.stateTracker with
  | some _ => s
  | none =>
    { s with
      stateTracker := some
        { lastHash := ""
          lastChangeTime := now - activityCooldown
          acknowledged := false
          stabilized := false
          lastContent := "" } }

/-- Set the tracker's `acknowledged` flag (no-op when no tracker exists). -/
def setTrackerAck (b : Bool) (s : Session) : Session :=
  match s.stateTracker with
  | some t => { s with stateTracker := some { t with acknowledged := b } }
  | none => s

/-- `Acknowledge` from the source. -/
def acknowledge (now : Int) (s : Session) : Session :=
  { setTrackerAck true (ensureStateTracker now s) with lastStableStatus := "idle" }

/-- `ResetAcknowledged` from the source. -/
def resetAcknowledged (now : Int) (s : Session) : Session :=
  { setTrackerAck false (ensureStateTracker now s) with lastStableStatus := "waiting" }

/-- `AcknowledgeWithSnapshot` from the source: on a live session with a good
capture, re-baseline `lastHash` to the hash of the normalized current content
and acknowledge; a missing session or capture error only acknowledges. -/
def acknowledgeWithSnapshot (now : Int) (cap : Capture) (s : Session) : Session :=
  let s1 := ensureStateTracker now s
  match cap with
  | .noSession => { setTrackerAck true s1 with lastStableStatus := "inactive" }
  | .captureError => { setTrackerAck true s1 with lastStableStatus := "idle" }
  | .ok content =>
    let cleanContent := normalizeContent content
    let newHash := hashContent cleanContent
    match s1.stateTracker with
    | some t =>
      { s1 with
        stateTracker := some { t with lastHash := newHash, acknowledged := true }
        lastStableStatus := "idle" }
    | none => s1

/-- The hash `GetStatus` computes for captured content: SHA-256 of the
normalized content, with the `__empty__` placeholder for empty content. -/
def currentHashOf (content : String) : String :=
  let cleanContent := normalizeContent content
  let currentHash := hashContent cleanContent
  if currentHash = "" ∨ cleanContent = "" then "__empty__" else currentHash

/-- `GetStatus` from the source, as a function of the poll instant and the
observed outcome of the `Exists()`/`CapturePane()` calls. Returns the updated
session and the emitted status string. -/
def getStatus (now : Int) (cap : Capture) (s : Session) : Session × String :=
  match cap with
  | .noSession => ({ s with lastStableStatus := "inactive" }, "inactive")
  | .captureError => ({ s with lastStableStatus := "inactive" }, "inactive")
  | .ok content =>
    let cleanContent := normalizeContent content
    let currentHash := currentHashOf content
    match s.stateTracker with
    | none =>
      ({ s with
          stateTracker := some
            { lastHash := currentHash
              lastChangeTime := now - activityCooldown
              acknowledged := false
              stabilized := false
              lastContent := "" }
          lastStableStatus := "waiting" }, "waiting")
    | some t =>
      if t.lastHash = "" then
        let t' : StateTracker := { t with lastHash := currentHash }
        if t.acknowledged then
          ({ s with stateTracker := some t', lastStableStatus := "idle" }, "idle")
        else
          ({ s with stateTracker := some t', lastStableStatus := "waiting" }, "waiting")
      else if t.lastHash ≠ currentHash then
        let t' : StateTracker :=
          { t with
            lastHash := currentHash
            lastContent := cleanContent
            lastChangeTime := now
            acknowledged := false }
        if t.stabilized then
          ({ s with stateTracker := some t', lastStableStatus := "active" }, "active")
        else
          ({ s with stateTracker := some t', lastStableStatus := "waiting" }, "waiting")
      else
        let timeSinceChange := now - t.lastChangeTime
        if timeSinceChange < activityCooldown then
          if t.stabilized then
            ({ s with lastStableStatus := "active" }, "active")
          else
            ({ s with lastStableStatus := "waiting" }, "waiting")
        else
          let t' : StateTracker := { t with stabilized := true }
          if t.acknowledged then
            ({ s with stateTracker := some t', lastStableStatus := "idle" }, "idle")
          else
            ({ s with stateTracker := some t', lastStableStatus := "waiting" }, "waiting")

/-! ## Tool detection (`DetectTool`) -/

/-- ASCII lowercasing (`strings.ToLower`; the detection literals are ASCII). -/
def toLowerStr (s : String) : String := (s.toList.map Char.toLower).asString

/-- Case-insensitive substring test, the semantics of the `(?i)lit` patterns
and of `strings.Contains(strings.ToLower(cmd), lit)`. -/
def containsCI (hay needle : String) : Bool :=
  containsSub (toLowerStr hay).toList (toLowerStr needle).toList

/-- `toolDetectionPatterns` from the source. The Go map iterates in
unspecified order; this embedding fixes the source-textual order, and the
theorems about content detection only use order-independent facts. -/
def toolDetectionPatterns : List (String × List String) :=
  [("claude", ["claude", "anthropic"]),
   ("gemini", ["gemini", "google ai"]),
   ("aider", ["aider"]),
   ("codex", ["codex", "openai"])]

/-- First tool whose pattern pack matches the (ANSI-stripped) content. -/
def findToolMatch (content : String) : List (String × List String) → Option String
  | [] => none
  | (tool, pats) :: rest =>
    if pats.any (fun p => containsCI content p) then some tool
    else findToolMatch content rest

/-- `DetectTool` from the source: cached result within the TTL, then the
command literals in priority order, then content regex packs with `shell`
fallback (also used on capture failure). `cap` is the outcome of the
`CapturePane()` call the content fallback performs (`none` = error). -/
def detectTool (now : Int) (cap : Option String) (s : Session) : Session × String :=
  if s.detectedTool ≠ "" ∧ now - s.toolDetectedAt < s.toolDetectExpiry then
    (s, s.detectedTool)
  else if s.command ≠ "" ∧ containsCI s.command "claude" then
    ({ s with detectedTool := "claude", toolDetectedAt := now }, "claude")
  else if s.command ≠ "" ∧ containsCI s.command "gemini" then
    ({ s with detectedTool := "gemini", toolDetectedAt := now }, "gemini")
  else if s.command ≠ "" ∧ containsCI s.command "aider" then
    ({ s with detectedTool := "aider", toolDetectedAt := now }, "aider")
  else if s.command ≠ "" ∧ containsCI s.command "codex" then
    ({ s with detectedTool := "codex", toolDetectedAt := now }, "codex")
  else
    match cap with
    | none => ({ s with detectedTool := "shell", toolDetectedAt := now }, "shell")
    | some content =>
      match findToolMatch (stripANSI content) toolDetectionPatterns with
      | some tool => ({ s with detectedTool := tool, toolDetectedAt := now }, tool)
      | none => ({ s with detectedTool := "shell", toolDetectedAt := now }, "shell")

/-! ## Basic facts about `hashContent` -/

theorem toList_asString (l : List Char) : l.asString.toList = l := rfl

theorem length_toHex32 (n : Nat) : (toHex32 n).length = 8 := rfl

theorem length_flatten_hex (ws : List Nat) : ((ws.map toHex32).flatten).length = 8 * ws.length := by
  induction ws with
  | nil => rfl
  | cons w ws ih =>
    simp only [List.map_cons, List.flatten_cons, List.length_append, length_toHex32, ih,
      List.length_cons]
    omega

theorem length_sha256Words (m : List Nat) : (sha256Words m).length = 8 := rfl

/-- Every hash produced by `hashContent` is 64 hex characters long. -/
theorem hashContent_length (s : String) : (hashContent s).length = 64 := by
  show (List.asString _).length = 64
  have h1 : ∀ l : List Char, l.asString.length = l.length := fun _ => rfl
  rw [h1, length_flatten_hex, length_sha256Words]

/-- A SHA-256 hex digest is never the empty string. -/
theorem hashContent_ne_nil (s : String) : hashContent s ≠ "" := by
  intro h
  have := congrArg String.length h
  rw [hashContent_length] at this
  exact absurd this (by decide)

/-- A SHA-256 hex digest is never the `__empty__` placeholder. -/
theorem hashContent_ne_placeholder (s : String) : hashContent s ≠ "__empty__" := by
  intro h
  have := congrArg String.length h
  rw [hashContent_length] at this
  exact absurd this (by decide)

/-- When the normalized content is nonempty, `GetStatus`'s current hash is the
plain content hash (the `__empty__` placeholder does not fire). -/
theorem currentHashOf_of_ne (c : String) (h : normalizeContent c ≠ "") :
    currentHashOf c = hashContent (normalizeContent c) := by
  unfold currentHashOf
  rw [if_neg]
  intro hor
  rcases hor with h1 | h2
  · exact hashContent_ne_nil _ h1
  · exact h h2

/-- Sample session used as a concrete input by witnesses. -/
def mkSession (tr : Option StateTracker) : Session :=
  { name := "agentdeck_demo_ab12cd34"
    displayName := "demo"
    workDir := "/w"
    command := ""
    created := 0
    lastHash := ""
    lastContent := ""
    detectedTool := ""
    toolDetectedAt := 0
    toolDetectExpiry := 30 * 1000000000
    stateTracker := tr
    lastStableStatus := "waiting" }

/-! ## Claims -/

/-- C7: when the multiplexer session does not exist or pane capture fails,
`GetStatus` returns `"inactive"` and leaves the tracker (hence every tracker
field) unchanged, so a transient capture error does not re-baseline the
tracked state. -/
theorem c7_failure_inactive_frame (now : Int) (s : Session) :
    (getStatus now .noSession s).2 = "inactive" ∧
    (getStatus now .noSession s).1.stateTracker = s.stateTracker ∧
    (getStatus now .captureError s).2 = "inactive" ∧
    (getStatus now .captureError s).1.stateTracker = s.stateTracker :=
  ⟨rfl, rfl, rfl, rfl⟩

/-- C3: the first `GetStatus` call for a session with no tracker (session
existing, capture succeeding) creates the tracker with the fresh hash, an
already-expired cooldown (`now - activityCooldown`), `acknowledged = false`,
`stabilized = false`, and returns `"waiting"` — in particular never
`"active"`. -/
theorem c3_first_poll_init (now : Int) (c : String) (s : Session)
    (h : s.stateTracker = none) :
    getStatus now (.ok c) s =
      ({ s with
          stateTracker := some ⟨currentHashOf c, now - activityCooldown, false, false, ""⟩
          lastStableStatus := "waiting" }, "waiting") := by
  simp only [getStatus, h]

theorem c3_first_poll_init_witness :
    getStatus 7 (.ok "hello") (mkSession none) =
      ({ mkSession none with
          stateTracker := some ⟨currentHashOf "hello", 7 - activityCooldown, false, false, ""⟩
          lastStableStatus := "waiting" }, "waiting") :=
  c3_first_poll_init 7 "hello" (mkSession none) rfl

/-- C1: a poll whose fresh normalized hash `H` differs from the tracker's
non-empty `lastHash` stores `H`, sets `lastChangeTime := now` and
`acknowledged := false`, and returns `"active"` when `stabilized` and
`"waiting"` otherwise. -/
theorem c1_changed_poll (now : Int) (c : String) (s : Session) (t : StateTracker)
    (ht : s.stateTracker = some t) (hne : t.lastHash ≠ "")
    (hch : currentHashOf c ≠ t.lastHash) :
    getStatus now (.ok c) s =
      ({ s with
          stateTracker := some ⟨currentHashOf c, now, false, t.stabilized, normalizeContent c⟩
          lastStableStatus := if t.stabilized then "active" else "waiting" },
        if t.stabilized then "active" else "waiting") := by
  simp only [getStatus, ht]
  rw [if_neg hne, if_pos (Ne.symm hch)]
  cases hst : t.stabilized <;> simp [hst]

theorem c1_changed_poll_witness :
    getStatus 5 (.ok "hello") (mkSession (some ⟨"deadbeef", 0, false, true, ""⟩)) =
      ({ mkSession (some ⟨"deadbeef", 0, false, true, ""⟩) with
          stateTracker := some ⟨currentHashOf "hello", 5, false, true, normalizeContent "hello"⟩
          lastStableStatus := "active" }, "active") := by
  have h := c1_changed_poll 5 "hello" (mkSession (some ⟨"deadbeef", 0, false, true, ""⟩))
    ⟨"deadbeef", 0, false, true, ""⟩ rfl (by decide) (by decide)
  simpa using h

/-- C2: a poll whose fresh normalized hash equals the tracker's non-empty
`lastHash` returns, within the 2-second cooldown, `"active"`/`"waiting"`
according to `stabilized` without mutating any tracker field; once the
cooldown has expired it sets `stabilized := true` and returns `"idle"` when
`acknowledged` and `"waiting"` otherwise. -/
theorem c2_unchanged_poll (now : Int) (c : String) (s : Session) (t : StateTracker)
    (ht : s.stateTracker = some t) (hne : t.lastHash ≠ "")
    (heq : currentHashOf c = t.lastHash) :
    (now - t.lastChangeTime < activityCooldown →
      getStatus now (.ok c) s =
        ({ s with lastStableStatus := if t.stabilized then "active" else "waiting" },
          if t.stabilized then "active" else "waiting")) ∧
    (¬ now - t.lastChangeTime < activityCooldown →
      getStatus now (.ok c) s =
        ({ s with
            stateTracker :=
              some ⟨t.lastHash, t.lastChangeTime, t.acknowledged, true, t.lastContent⟩
            lastStableStatus := if t.acknowledged then "idle" else "waiting" },
          if t.acknowledged then "idle" else "waiting")) := by
  have hnech : ¬ t.lastHash ≠ currentHashOf c := by
    simp [heq]
  constructor
  · intro hcool
    simp only [getStatus, ht]
    rw [if_neg hne, if_neg hnech, if_pos hcool]
    cases hst : t.stabilized <;> simp [hst]
  · intro hcool
    simp only [getStatus, ht]
    rw [if_neg hne, if_neg hnech, if_neg hcool]
    cases hac : t.acknowledged <;> simp [hac]

theorem c2_unchanged_poll_witness :
    ((0 : Int) - 0 < activityCooldown ∧
      getStatus 0 (.ok "hello")
          (mkSession (some ⟨currentHashOf "hello", 0, false, true, ""⟩)) =
        ({ mkSession (some ⟨currentHashOf "hello", 0, false, true, ""⟩) with
            lastStableStatus := "active" }, "active")) ∧
    (¬ (3000000000 : Int) - 0 < activityCooldown ∧
      getStatus 3000000000 (.ok "hello")
          (mkSession (some ⟨currentHashOf "hello", 0, true, false, ""⟩)) =
        ({ mkSession (some ⟨currentHashOf "hello", 0, true, false, ""⟩) with
            stateTracker := some ⟨currentHashOf "hello", 0, true, true, ""⟩
            lastStableStatus := "idle" }, "idle")) := by
  constructor
  · refine ⟨by decide, ?_⟩
    have h := (c2_unchanged_poll 0 "hello"
      (mkSession (some ⟨currentHashOf "hello", 0, false, true, ""⟩))
      ⟨currentHashOf "hello", 0, false, true, ""⟩ rfl (by decide) rfl).1 (by decide)
    simpa using h
  · refine ⟨by decide, ?_⟩
    have h := (c2_unchanged_poll 3000000000 "hello"
      (mkSession (some ⟨currentHashOf "hello", 0, true, false, ""⟩))
      ⟨currentHashOf "hello", 0, true, false, ""⟩ rfl (by decide) rfl).2 (by decide)
    simpa using h

/-- C10: `Acknowledge` on a fresh session (no prior `GetStatus`) lazily
allocates the tracker with `lastHash = ""` and `acknowledged = true`; the
first subsequent successful poll takes the empty-hash path, stores the fresh
hash and returns `"idle"` — not the `"waiting"` of first-poll initialization,
and never `"active"`. -/
theorem c10_ack_before_first_poll (name workDir suffix : String)
    (now0 now1 now2 : Int) (c : String) :
    (acknowledge now1 (newSession name workDir suffix now0)).stateTracker =
      some ⟨"", now1 - activityCooldown, true, false, ""⟩ ∧
    getStatus now2 (.ok c) (acknowledge now1 (newSession name workDir suffix now0)) =
      ({ acknowledge now1 (newSession name workDir suffix now0) with
          stateTracker := some ⟨currentHashOf c, now1 - activityCooldown, true, false, ""⟩
          lastStableStatus := "idle" }, "idle") := by
  constructor
  · simp [acknowledge, ensureStateTracker, setTrackerAck, newSession]
  · simp [acknowledge, ensureStateTracker, setTrackerAck, newSession, getStatus]

/-- C4: rehydration from persistence. Prior `"idle"` seeds a tracker with an
empty hash, a 10-second-old change time, `acknowledged = true`,
`stabilized = true`; prior `"waiting"` seeds the same with
`acknowledged = false`; prior `"active"` or unknown seeds no tracker. The
first successful poll after rehydration stores the fresh hash and returns
`"idle"` / `"waiting"` / `"waiting"` respectively — never `"active"`, even
when the captured content differs from what was last seen. -/
theorem c4_rehydration (n d w cmd : String) (now now' : Int) (c : String) :
    ((reconnectSessionWithStatus n d w cmd "idle" now).stateTracker =
        some ⟨"", now - 10 * 1000000000, true, true, ""⟩ ∧
      getStatus now' (.ok c) (reconnectSessionWithStatus n d w cmd "idle" now) =
        ({ reconnectSessionWithStatus n d w cmd "idle" now with
            stateTracker := some ⟨currentHashOf c, now - 10 * 1000000000, true, true, ""⟩
            lastStableStatus := "idle" }, "idle")) ∧
    ((reconnectSessionWithStatus n d w cmd "waiting" now).stateTracker =
        some ⟨"", now - 10 * 1000000000, false, true, ""⟩ ∧
      getStatus now' (.ok c) (reconnectSessionWithStatus n d w cmd "waiting" now) =
        ({ reconnectSessionWithStatus n d w cmd "waiting" now with
            stateTracker := some ⟨currentHashOf c, now - 10 * 1000000000, false, true, ""⟩
            lastStableStatus := "waiting" }, "waiting")) ∧
    (∀ prior : String, prior ≠ "idle" → prior ≠ "waiting" →
      (reconnectSessionWithStatus n d w cmd prior now).stateTracker = none ∧
      getStatus now' (.ok c) (reconnectSessionWithStatus n d w cmd prior now) =
        ({ reconnectSessionWithStatus n d w cmd prior now with
            stateTracker := some ⟨currentHashOf c, now' - activityCooldown, false, false, ""⟩
            lastStableStatus := "waiting" }, "waiting")) := by
  refine ⟨⟨?_, ?_⟩, ⟨?_, ?_⟩, ?_⟩
  · simp [reconnectSessionWithStatus, reconnectSession]
  · simp [reconnectSessionWithStatus, reconnectSession, getStatus]
  · simp [reconnectSessionWithStatus, reconnectSession]
  · simp [reconnectSessionWithStatus, reconnectSession, getStatus]
  · intro prior h1 h2
    constructor
    · simp only [reconnectSessionWithStatus, reconnectSession]
      rw [if_neg h1, if_neg h2]
      split <;> rfl
    · have hnone : (reconnectSessionWithStatus n d w cmd prior now).stateTracker = none := by
        simp only [reconnectSessionWithStatus, reconnectSession]
        rw [if_neg h1, if_neg h2]
        split <;> rfl
      simp [getStatus, hnone]

theorem c4_rehydration_witness :
    (reconnectSessionWithStatus "agentdeck_x_ab" "x" "/w" "vim" "active" 0).stateTracker = none ∧
    getStatus 9 (.ok "fresh content")
        (reconnectSessionWithStatus "agentdeck_x_ab" "x" "/w" "vim" "active" 0) =
      ({ reconnectSessionWithStatus "agentdeck_x_ab" "x" "/w" "vim" "active" 0 with
          stateTracker := some ⟨currentHashOf "fresh content", 9 - activityCooldown, false, false, ""⟩
          lastStableStatus := "waiting" }, "waiting") :=
  (c4_rehydration "agentdeck_x_ab" "x" "/w" "vim" 0 9 "fresh content").2.2 "active"
    (by decide) (by decide)

/-! ## Operations for the stabilization-monotonicity claim -/

/-- The tracker-touching operations a session handle supports. -/
inductive SessionOp where
  | poll (now : Int) (cap : Capture)
  | ack (now : Int)
  | ackSnapshot (now : Int) (cap : Capture)
  | resetAck (now : Int)

def applyOp (s : Session) : SessionOp → Session
  | .poll now cap => (getStatus now cap s).1
  | .ack now => acknowledge now s
  | .ackSnapshot now cap => acknowledgeWithSnapshot now cap s
  | .resetAck now => resetAcknowledged now s

def runOps (s : Session) (ops : List SessionOp) : Session := ops.foldl applyOp s

/-- The tracker exists and has `stabilized = true`. -/
def stabilizedTracker (s : Session) : Prop :=
  ∃ t : StateTracker, s.stateTracker = some t ∧ t.stabilized = true

theorem stabilizedTracker_applyOp (s : Session) (op : SessionOp)
    (h : stabilizedTracker s) : stabilizedTracker (applyOp s op) := by
  obtain ⟨t, ht, hst⟩ := h
  have hens : ∀ now : Int, ensureStateTracker now s = s := by
    intro now
    simp [ensureStateTracker, ht]
  cases op with
  | poll now cap =>
    cases cap with
    | noSession => exact ⟨t, ht, hst⟩
    | captureError => exact ⟨t, ht, hst⟩
    | ok content =>
      simp only [applyOp, getStatus, ht]
      repeat' split
      all_goals first
        | exact ⟨_, rfl, hst⟩
        | exact ⟨_, rfl, rfl⟩
  | ack now =>
    refine ⟨{ t with acknowledged := true }, ?_, hst⟩
    simp [applyOp, acknowledge, hens, setTrackerAck, ht]
  | ackSnapshot now cap =>
    cases cap with
    | noSession =>
      refine ⟨{ t with acknowledged := true }, ?_, hst⟩
      simp [applyOp, acknowledgeWithSnapshot, hens, setTrackerAck, ht]
    | captureError =>
      refine ⟨{ t with acknowledged := true }, ?_, hst⟩
      simp [applyOp, acknowledgeWithSnapshot, hens, setTrackerAck, ht]
    | ok content =>
      refine ⟨⟨hashContent (normalizeContent content), t.lastChangeTime, true, t.stabilized,
        t.lastContent⟩, ?_, hst⟩
      simp [applyOp, acknowledgeWithSnapshot, hens, ht]
  | resetAck now =>
    refine ⟨{ t with acknowledged := false }, ?_, hst⟩
    simp [applyOp, resetAcknowledged, hens, setTrackerAck, ht]

theorem stabilizedTracker_foldl (ops : List SessionOp) :
    ∀ s : Session, stabilizedTracker s → stabilizedTracker (ops.foldl applyOp s) := by
  induction ops with
  | nil => intro s h; simpa using h
  | cons op rest ih =>
    intro s h
    simpa using ih (applyOp s op) (stabilizedTracker_applyOp s op h)

/-- C9: `stabilized` is monotone — once a session's tracker has
`stabilized = true`, no sequence of subsequent operations (`GetStatus` polls
with any capture outcome, `Acknowledge`, `AcknowledgeWithSnapshot`,
`ResetAcknowledged`) ever resets it to `false`, nor destroys the tracker. -/
theorem c9_stabilized_monotone (ops : List SessionOp) (s : Session) (t : StateTracker)
    (ht : s.stateTracker = some t) (hst : t.stabilized = true) :
    ∃ t' : StateTracker, (runOps s ops).stateTracker = some t' ∧ t'.stabilized = true :=
  stabilizedTracker_foldl ops s ⟨t, ht, hst⟩

theorem c9_stabilized_monotone_witness :
    ∃ t' : StateTracker,
      (runOps (mkSession (some ⟨"h0", 0, false, true, ""⟩))
        [SessionOp.poll 1 (.ok "x"), SessionOp.resetAck 2, SessionOp.ack 3,
         SessionOp.ackSnapshot 4 (.ok "y"), SessionOp.poll 5 .noSession,
         SessionOp.poll 6 .captureError, SessionOp.poll 9000000000 (.ok "y")]).stateTracker =
        some t' ∧ t'.stabilized = true :=
  c9_stabilized_monotone _ (mkSession (some ⟨"h0", 0, false, true, ""⟩))
    ⟨"h0", 0, false, true, ""⟩ rfl rfl

/-- C5 counterexample: `AcknowledgeWithSnapshot` followed immediately by a poll
with the same underlying content CAN return `"active"`, contradicting the
claim: (i) when the ack falls within the activity cooldown of a recent content
change, and (ii) when the content normalizes to the empty string (the snapshot
stores `hash("")` but the poll compares against the `__empty__` placeholder). -/
theorem c5_ack_snapshot_counterexample :
    (getStatus 1 (.ok "x")
        (acknowledgeWithSnapshot 0 (.ok "x")
          (mkSession (some ⟨"h0", 0, false, true, ""⟩)))).2 = "active" ∧
    (getStatus 0 (.ok "")
        (acknowledgeWithSnapshot 0 (.ok "")
          (mkSession (some ⟨"h0", -10000000000, false, true, ""⟩)))).2 = "active" := by
  constructor
  · decide
  · decide

/-- C5 (amended): `AcknowledgeWithSnapshot` on a live session with a good
capture sets the tracker's `lastHash` to the normalized content's hash,
`acknowledged := true`, and emits `"idle"`; a `GetStatus` poll afterwards that
captures the same underlying pane content returns `"idle"` (not `"active"`)
provided the normalized content is nonempty and the activity cooldown since
the tracker's `lastChangeTime` has expired. -/
theorem c5_ack_snapshot_amended (now now' : Int) (c : String) (s : Session)
    (t : StateTracker) (ht : s.stateTracker = some t)
    (hcne : normalizeContent c ≠ "") :
    acknowledgeWithSnapshot now (.ok c) s =
      { s with
          stateTracker :=
            some ⟨hashContent (normalizeContent c), t.lastChangeTime, true, t.stabilized,
              t.lastContent⟩
          lastStableStatus := "idle" } ∧
    (¬ now' - t.lastChangeTime < activityCooldown →
      getStatus now' (.ok c) (acknowledgeWithSnapshot now (.ok c) s) =
        ({ s with
            stateTracker :=
              some ⟨hashContent (normalizeContent c), t.lastChangeTime, true, true,
                t.lastContent⟩
            lastStableStatus := "idle" }, "idle")) := by
  have hens : ensureStateTracker now s = s := by
    simp [ensureStateTracker, ht]
  have hack : acknowledgeWithSnapshot now (.ok c) s =
      { s with
          stateTracker :=
            some ⟨hashContent (normalizeContent c), t.lastChangeTime, true, t.stabilized,
              t.lastContent⟩
          lastStableStatus := "idle" } := by
    simp [acknowledgeWithSnapshot, hens, ht]
  refine ⟨hack, ?_⟩
  intro hcool
  rw [hack]
  have hcur : currentHashOf c = hashContent (normalizeContent c) := currentHashOf_of_ne c hcne
  simp only [getStatus]
  rw [if_neg (hashContent_ne_nil _)]
  rw [if_neg (by simp [hcur])]
  rw [if_neg (by simpa using hcool)]
  simp

theorem c5_ack_snapshot_amended_witness :
    normalizeContent "x" ≠ "" ∧
    ¬ (3000000000 : Int) - 0 < activityCooldown ∧
    getStatus 3000000000 (.ok "x")
        (acknowledgeWithSnapshot 0 (.ok "x")
          (mkSession (some ⟨"h0", 0, false, true, ""⟩))) =
      ({ mkSession (some ⟨"h0", 0, false, true, ""⟩) with
          stateTracker := some ⟨hashContent (normalizeContent "x"), 0, true, true, ""⟩
          lastStableStatus := "idle" }, "idle") := by
  refine ⟨by decide, by decide, ?_⟩
  have h := (c5_ack_snapshot_amended 0 3000000000 "x"
    (mkSession (some ⟨"h0", 0, false, true, ""⟩)) ⟨"h0", 0, false, true, ""⟩ rfl
    (by decide)).2 (by decide)
  simpa using h

/-! ## Tool detection lemmas -/

/-- The cached-result condition of `DetectTool`. -/
def toolCacheValid (now : Int) (s : Session) : Prop :=
  s.detectedTool ≠ "" ∧ now - s.toolDetectedAt < s.toolDetectExpiry

/-- The session update every fresh detection performs. -/
def withTool (s : Session) (tool : String) (now : Int) : Session :=
  { s with detectedTool := tool, toolDetectedAt := now }

/-- The command literals match none of the four tools (or there is no command). -/
def commandMatchesNone (s : Session) : Prop :=
  s.command = "" ∨
    (containsCI s.command "claude" = false ∧ containsCI s.command "gemini" = false ∧
     containsCI s.command "aider" = false ∧ containsCI s.command "codex" = false)

theorem findToolMatch_none (cc : String) (l : List (String × List String))
    (h : ∀ pr ∈ l, ∀ p ∈ pr.2, containsCI cc p = false) :
    findToolMatch cc l = none := by
  induction l with
  | nil => rfl
  | cons pr rest ih =>
    have hany : pr.2.any (fun p => containsCI cc p) = false := by
      rw [List.any_eq_false]
      intro p hp
      simp [h pr (List.mem_cons_self pr rest) p hp]
    obtain ⟨t0, p0⟩ := pr
    simp only [findToolMatch]
    rw [if_neg (by simpa using hany)]
    exact ih fun pr hpr p hp => h pr (List.mem_cons_of_mem _ hpr) p hp

theorem findToolMatch_unique (cc : String) (l : List (String × List String))
    (tool : String) (pats : List String) (hmem : (tool, pats) ∈ l)
    (hmatch : ∃ p ∈ pats, containsCI cc p = true)
    (hothers : ∀ pr ∈ l, pr.1 ≠ tool → ∀ p ∈ pr.2, containsCI cc p = false) :
    findToolMatch cc l = some tool := by
  induction l with
  | nil => cases hmem
  | cons pr rest ih =>
    obtain ⟨t0, p0⟩ := pr
    by_cases ht0 : t0 = tool
    · subst ht0
      rcases List.mem_cons.mp hmem with heq | hrest
      · obtain ⟨p, hp, hcp⟩ := hmatch
        have : p0 = pats := (Prod.mk.injEq _ _ _ _ ▸ heq.symm).2
        subst this
        simp only [findToolMatch]
        rw [if_pos (by rw [List.any_eq_true]; exact ⟨p, hp, by simp [hcp]⟩)]
      · by_cases hany : p0.any (fun p => containsCI cc p) = true
        · simp only [findToolMatch]
          rw [if_pos (by simpa using hany)]
        · simp only [findToolMatch]
          rw [if_neg (by simpa using hany)]
          exact ih hrest fun pr hpr hne p hp =>
            hothers pr (List.mem_cons_of_mem _ hpr) hne p hp
    · have hany : p0.any (fun p => containsCI cc p) = false := by
        rw [List.any_eq_false]
        intro p hp
        simp [hothers (t0, p0) (List.mem_cons_self _ rest) ht0 p hp]
      have hrest : (tool, pats) ∈ rest := by
        rcases List.mem_cons.mp hmem with heq | hrest
        · exact absurd (congrArg Prod.fst heq.symm) ht0
        · exact hrest
      simp only [findToolMatch]
      rw [if_neg (by simpa using hany)]
      exact ih hrest fun pr hpr hne p hp => hothers pr (List.mem_cons_of_mem _ hpr) hne p hp

theorem findToolMatch_name_ne_nil (cc tool : String)
    (h : findToolMatch cc toolDetectionPatterns = some tool) : tool ≠ "" := by
  simp only [toolDetectionPatterns, findToolMatch] at h
  split_ifs at h
  all_goals injection h with h
  all_goals exact h ▸ (by decide)

/-- A fresh session (empty `detectedTool`) always gets a nonempty tool recorded
with `toolDetectedAt := now`. -/
theorem detectTool_fresh (now : Int) (cap : Option String) (s : Session)
    (h0 : s.detectedTool = "") :
    ∃ r : String, detectTool now cap s = (withTool s r now, r) ∧ r ≠ "" := by
  have hnc : ¬ (s.detectedTool ≠ "" ∧ now - s.toolDetectedAt < s.toolDetectExpiry) := by
    simp [h0]
  unfold detectTool withTool
  rw [if_neg hnc]
  split_ifs with h1 h2 h3 h4
  · exact ⟨"claude", rfl, by decide⟩
  · exact ⟨"gemini", rfl, by decide⟩
  · exact ⟨"aider", rfl, by decide⟩
  · exact ⟨"codex", rfl, by decide⟩
  · cases cap with
    | none => exact ⟨"shell", rfl, by decide⟩
    | some content =>
      cases hf : findToolMatch (stripANSI content) toolDetectionPatterns with
      | none => exact ⟨"shell", by simp [hf], by decide⟩
      | some tool => exact ⟨tool, by simp [hf], findToolMatch_name_ne_nil _ _ hf⟩

/-- C8: `DetectTool` (i) first checks the stored command case-insensitively for
`claude`, `gemini`, `aider`, `codex` in that priority order; (ii) only when the
command matches none of them does it match the ANSI-stripped captured content
against the per-tool regex packs, falling back to `"shell"` when nothing
matches and on capture failure (a tool whose pack alone matches is returned);
(iii) for a session created by `NewSession`, once a tool is detected, any
`DetectTool` call within the 30-second TTL returns the cached result without
re-detection. -/
theorem c8_detect_tool :
    (∀ (now : Int) (cap : Option String) (s : Session), ¬ toolCacheValid now s →
      s.command ≠ "" →
      (containsCI s.command "claude" = true →
        detectTool now cap s = (withTool s "claude" now, "claude")) ∧
      (containsCI s.command "claude" = false → containsCI s.command "gemini" = true →
        detectTool now cap s = (withTool s "gemini" now, "gemini")) ∧
      (containsCI s.command "claude" = false → containsCI s.command "gemini" = false →
        containsCI s.command "aider" = true →
        detectTool now cap s = (withTool s "aider" now, "aider")) ∧
      (containsCI s.command "claude" = false → containsCI s.command "gemini" = false →
        containsCI s.command "aider" = false → containsCI s.command "codex" = true →
        detectTool now cap s = (withTool s "codex" now, "codex"))) ∧
    (∀ (now : Int) (s : Session), ¬ toolCacheValid now s → commandMatchesNone s →
      detectTool now none s = (withTool s "shell" now, "shell") ∧
      (∀ content : String,
        (∀ pr ∈ toolDetectionPatterns, ∀ p ∈ pr.2,
            containsCI (stripANSI content) p = false) →
          detectTool now (some content) s = (withTool s "shell" now, "shell")) ∧
      (∀ (content tool : String) (pats : List String),
        (tool, pats) ∈ toolDetectionPatterns →
        (∃ p ∈ pats, containsCI (stripANSI content) p = true) →
        (∀ pr ∈ toolDetectionPatterns, pr.1 ≠ tool → ∀ p ∈ pr.2,
            containsCI (stripANSI content) p = false) →
          detectTool now (some content) s = (withTool s tool now, tool))) ∧
    (∀ (name workDir suf : String) (now0 now now' : Int) (cap cap' : Option String),
      now' - now < 30 * 1000000000 →
      detectTool now' cap' (detectTool now cap (newSession name workDir suf now0)).1 =
        detectTool now cap (newSession name workDir suf now0)) := by
  have hcmdnone : ∀ (now : Int) (cap : Option String) (s : Session), ¬ toolCacheValid now s →
      commandMatchesNone s →
      detectTool now cap s =
        (match cap with
          | none => (withTool s "shell" now, "shell")
          | some content =>
            match findToolMatch (stripANSI content) toolDetectionPatterns with
            | some tool => (withTool s tool now, tool)
            | none => (withTool s "shell" now, "shell")) := by
    intro now cap s hnc hcm
    have hnc' : ¬ (s.detectedTool ≠ "" ∧ now - s.toolDetectedAt < s.toolDetectExpiry) := hnc
    unfold detectTool
    rw [if_neg hnc']
    rcases hcm with hemp | ⟨h1, h2, h3, h4⟩
    · rw [if_neg (by simp [hemp]), if_neg (by simp [hemp]), if_neg (by simp [hemp]),
        if_neg (by simp [hemp])]
      rfl
    · rw [if_neg (by simp [h1]), if_neg (by simp [h2]), if_neg (by simp [h3]),
        if_neg (by simp [h4])]
      rfl
  refine ⟨?_, ?_, ?_⟩
  · intro now cap s hnc hcmd
    have hnc' : ¬ (s.detectedTool ≠ "" ∧ now - s.toolDetectedAt < s.toolDetectExpiry) := hnc
    refine ⟨?_, ?_, ?_, ?_⟩
    · intro hcl
      unfold detectTool
      rw [if_neg hnc', if_pos ⟨hcmd, hcl⟩]
      rfl
    · intro hcl hge
      unfold detectTool
      rw [if_neg hnc', if_neg (by simp [hcl]), if_pos ⟨hcmd, hge⟩]
      rfl
    · intro hcl hge hai
      unfold detectTool
      rw [if_neg hnc', if_neg (by simp [hcl]), if_neg (by simp [hge]), if_pos ⟨hcmd, hai⟩]
      rfl
    · intro hcl hge hai hco
      unfold detectTool
      rw [if_neg hnc', if_neg (by simp [hcl]), if_neg (by simp [hge]),
        if_neg (by simp [hai]), if_pos ⟨hcmd, hco⟩]
      rfl
  · intro now s hnc hcm
    refine ⟨?_, ?_, ?_⟩
    · rw [hcmdnone now none s hnc hcm]
    · intro content hnop
      rw [hcmdnone now (some content) s hnc hcm]
      simp [findToolMatch_none _ _ hnop]
    · intro content tool pats hmem hmatch hothers
      rw [hcmdnone now (some content) s hnc hcm]
      simp [findToolMatch_unique _ _ tool pats hmem hmatch hothers]
  · intro name workDir suf now0 now now' cap cap' httl
    obtain ⟨r, hr, hrne⟩ := detectTool_fresh now cap (newSession name workDir suf now0) rfl
    rw [hr]
    have hcache :
        (withTool (newSession name workDir suf now0) r now).detectedTool ≠ "" ∧
          now' - (withTool (newSession name workDir suf now0) r now).toolDetectedAt <
            (withTool (newSession name workDir suf now0) r now).toolDetectExpiry := by
      refine ⟨by simpa [withTool] using hrne, ?_⟩
      simpa [withTool, newSession] using httl
    unfold detectTool
    rw [if_pos hcache]
    rfl

theorem c8_detect_tool_witness :
    (detectTool 0 (some "plain pane") (mkSession none) =
      (withTool (mkSession none) "shell" 0, "shell")) ∧
    (detectTool 5 none
        ({ mkSession none with command := "run CLAUDE now" }) =
      (withTool ({ mkSession none with command := "run CLAUDE now" }) "claude" 5, "claude")) ∧
    (detectTool 3 (some "Welcome to Aider v1") (mkSession none) =
      (withTool (mkSession none) "aider" 3, "aider")) ∧
    (detectTool 29999999999 none
        (detectTool 0 (some "plain pane") (newSession "n" "/w" "ab" 0)).1 =
      detectTool 0 (some "plain pane") (newSession "n" "/w" "ab" 0)) := by
  refine ⟨?_, ?_, ?_, ?_⟩
  · exact ((c8_detect_tool.2.1 0 (mkSession none) (by simp [toolCacheValid, mkSession])
      (Or.inl rfl)).2.1 "plain pane" (by decide))
  · exact (c8_detect_tool.1 5 none ({ mkSession none with command := "run CLAUDE now" })
      (by simp [toolCacheValid, mkSession]) (by decide)).1 (by decide)
  · exact ((c8_detect_tool.2.1 3 (mkSession none) (by simp [toolCacheValid, mkSession])
      (Or.inl rfl)).2.2 "Welcome to Aider v1" "aider" ["aider"] (by decide)
      ⟨"aider", by decide, by decide⟩ (by decide))
  · exact c8_detect_tool.2.2 "n" "/w" "ab" 0 0 29999999999 (some "plain pane") none
      (by decide)

/-! ## Idempotence analysis of `normalizeContent`

The `thinkingPattern` replacement is single-pass: replacing
`Thinking x(a)` by `Thinking...` in `Thinking x(a)(b)` yields
`Thinking...(b)`, in which the pattern matches again. Normalization is
therefore not idempotent in general; it is idempotent on inputs without `(`,
which is proved below. -/

/-- C6 counterexample: normalization is not idempotent. On
`"Thinking x(a)(b)"` one pass gives `"Thinking...(b)"` and a second pass
gives `"Thinking..."`: the thinking-header replacement created a fresh match. -/
theorem c6_normalize_not_idempotent :
    normalizeContent (normalizeContent "Thinking x(a)(b)") ≠
      normalizeContent "Thinking x(a)(b)" := by
  decide

/-- No whitespace (space/TAB) character stands directly before a newline or at
the end: exactly the strings fixed by the per-line `TrimRight` pass. -/
def noTrailWS : List Char → Bool
  | [] => true
  | [c] => !(isTrimWS c)
  | c :: d :: rest => !(isTrimWS c && d = '\n') && noTrailWS (d :: rest)

/-- No three consecutive newlines: exactly the strings fixed by
`normalizeBlankLines`. -/
def noTripleNl : List Char → Bool
  | [] => true
  | [_] => true
  | [_, _] => true
  | a :: b :: c :: rest => !(a = '\n' && b = '\n' && c = '\n') && noTripleNl (b :: c :: rest)

/-- The last character (if any) is not space/TAB. -/
def endsOk (l : List Char) : Bool :=
  match l.getLast? with
  | none => true
  | some c => !(isTrimWS c)

theorem dropToParen?_eq_none (l : List Char) (h : '(' ∉ l) : dropToParen? l = none := by
  induction l with
  | nil => rfl
  | cons c rest ih =>
    have hc : c ≠ '(' := fun he => h (he ▸ List.mem_cons_self c rest)
    simp only [dropToParen?]
    rw [if_neg hc]
    exact ih fun hm => h (List.mem_cons_of_mem c hm)

theorem matchLitAt_eq_none (lit l : List Char) (h : '(' ∉ l) : matchLitAt lit l = none := by
  unfold matchLitAt
  split_ifs with hp
  · rw [dropToParen?_eq_none _ fun hm => h (List.mem_of_mem_drop hm)]
  · rfl

theorem matchThinkAt_eq_none (l : List Char) (h : '(' ∉ l) : matchThinkAt l = none := by
  unfold matchThinkAt
  rw [matchLitAt_eq_none _ _ h, matchLitAt_eq_none _ _ h]

theorem thinkingGo_id (fuel : Nat) (l : List Char) (h : '(' ∉ l) :
    thinkingGo fuel l = l := by
  induction fuel generalizing l with
  | zero => rfl
  | succ fuel ih =>
    cases l with
    | nil => rfl
    | cons c rest =>
      simp only [thinkingGo, matchThinkAt_eq_none _ h]
      rw [ih rest fun hm => h (List.mem_cons_of_mem c hm)]

theorem thinkingReplaceL_id (l : List Char) (h : '(' ∉ l) : thinkingReplaceL l = l :=
  thinkingGo_id _ l h

theorem dynamicGo_id (fuel : Nat) (l : List Char) (h : '(' ∉ l) :
    dynamicGo fuel l = l := by
  induction fuel generalizing l with
  | zero => rfl
  | succ fuel ih =>
    cases l with
    | nil => rfl
    | cons c rest =>
      have hc : c ≠ '(' := fun he => h (he ▸ List.mem_cons_self c rest)
      simp only [dynamicGo]
      rw [if_neg hc, ih rest fun hm => h (List.mem_cons_of_mem c hm)]

theorem dynamicReplaceL_id (l : List Char) (h : '(' ∉ l) : dynamicReplaceL l = l :=
  dynamicGo_id _ l h

theorem mem_stripAnsiGo (m : AnsiMode) (l : List Char) (c : Char)
    (h : c ∈ stripAnsiGo m l) : c ∈ l ∨ c = '\x1b' := by
  induction l generalizing m with
  | nil =>
    cases m <;> simp only [stripAnsiGo] at h
    · cases h
    · right
      simpa using h
    · cases h
    · cases h
  | cons x rest ih =>
    cases m with
    | text =>
      simp only [stripAnsiGo] at h
      split_ifs at h with h1 h2
      · rcases ih .esc h with hm | he
        · exact Or.inl (List.mem_cons_of_mem x hm)
        · exact Or.inr he
      · rcases ih .text h with hm | he
        · exact Or.inl (List.mem_cons_of_mem x hm)
        · exact Or.inr he
      · rcases List.mem_cons.mp h with he | hm
        · exact Or.inl (he ▸ List.mem_cons_self x rest)
        · rcases ih .text hm with hm' | he'
          · exact Or.inl (List.mem_cons_of_mem x hm')
          · exact Or.inr he'
    | esc =>
      simp only [stripAnsiGo] at h
      split_ifs at h with h1 h2 h3 h4
      · rcases ih .csi h with hm | he
        · exact Or.inl (List.mem_cons_of_mem x hm)
        · exact Or.inr he
      · rcases ih .osc h with hm | he
        · exact Or.inl (List.mem_cons_of_mem x hm)
        · exact Or.inr he
      · rcases List.mem_cons.mp h with he | hm
        · exact Or.inr he
        · rcases ih .esc hm with hm' | he'
          · exact Or.inl (List.mem_cons_of_mem x hm')
          · exact Or.inr he'
      · rcases List.mem_cons.mp h with he | hm
        · exact Or.inr he
        · rcases ih .text hm with hm' | he'
          · exact Or.inl (List.mem_cons_of_mem x hm')
          · exact Or.inr he'
      · rcases List.mem_cons.mp h with he | hm
        · exact Or.inr he
        · rcases List.mem_cons.mp hm with he' | hm'
          · exact Or.inl (he' ▸ List.mem_cons_self x rest)
          · rcases ih .text hm' with hm'' | he''
            · exact Or.inl (List.mem_cons_of_mem x hm'')
            · exact Or.inr he''
    | csi =>
      simp only [stripAnsiGo] at h
      split_ifs at h
      all_goals
        rcases ih _ h with hm | he
        · exact Or.inl (List.mem_cons_of_mem x hm)
        · exact Or.inr he
    | osc =>
      simp only [stripAnsiGo] at h
      split_ifs at h
      all_goals
        rcases ih _ h with hm | he
        · exact Or.inl (List.mem_cons_of_mem x hm)
        · exact Or.inr he

theorem not_c1_stripAnsiGo (m : AnsiMode) (l : List Char) (c : Char)
    (h : c ∈ stripAnsiGo m l) : isC1Code c = false := by
  induction l generalizing m with
  | nil =>
    cases m <;> simp only [stripAnsiGo] at h
    · cases h
    · have : c = '\x1b' := by simpa using h
      subst this
      decide
    · cases h
    · cases h
  | cons x rest ih =>
    cases m with
    | text =>
      simp only [stripAnsiGo] at h
      split_ifs at h with h1 h2
      · exact ih .esc h
      · exact ih .text h
      · rcases List.mem_cons.mp h with he | hm
        · subst he
          simpa using h2
        · exact ih .text hm
    | esc =>
      simp only [stripAnsiGo] at h
      split_ifs at h with h1 h2 h3 h4
      · exact ih .csi h
      · exact ih .osc h
      · rcases List.mem_cons.mp h with he | hm
        · subst he
          decide
        · exact ih .esc hm
      · rcases List.mem_cons.mp h with he | hm
        · subst he
          decide
        · exact ih .text hm
      · rcases List.mem_cons.mp h with he | hm
        · subst he
          decide
        · rcases List.mem_cons.mp hm with he' | hm'
          · subst he'
            simpa using h4
          · exact ih .text hm'
    | csi =>
      simp only [stripAnsiGo] at h
      split_ifs at h
      all_goals exact ih _ h
    | osc =>
      simp only [stripAnsiGo] at h
      split_ifs at h
      all_goals exact ih _ h

theorem stripAnsiGo_id (l : List Char)
    (h : ∀ c ∈ l, c ≠ '\x1b' ∧ isC1Code c = false) : stripAnsiGo .text l = l := by
  induction l with
  | nil => rfl
  | cons x rest ih =>
    obtain ⟨hx1, hx2⟩ := h x (List.mem_cons_self x rest)
    simp only [stripAnsiGo]
    rw [if_neg hx1, if_neg (by simp [hx2])]
    rw [ih fun c hc => h c (List.mem_cons_of_mem x hc)]

theorem mem_foldFilter (rs : List Char) (l : List Char) (c : Char)
    (h : c ∈ rs.foldl (fun acc r => acc.filter (fun d => d ≠ r)) l) : c ∈ l := by
  induction rs generalizing l with
  | nil => simpa using h
  | cons r rest ih =>
    have := ih (l.filter (fun d => d ≠ r)) (by simpa using h)
    exact List.mem_of_mem_filter this

theorem not_mem_of_foldFilter (rs : List Char) (l : List Char) (c : Char)
    (h : c ∈ rs.foldl (fun acc r => acc.filter (fun d => d ≠ r)) l) : c ∉ rs := by
  induction rs generalizing l with
  | nil => simp
  | cons r rest ih =>
    have hrest : c ∉ rest := ih (l.filter (fun d => d ≠ r)) (by simpa using h)
    have hmem : c ∈ l.filter (fun d => d ≠ r) := by
      have hsub := mem_foldFilter rest (l.filter (fun d => d ≠ r)) c (by simpa using h)
      exact hsub
    have hcr : c ≠ r := by
      have := List.of_mem_filter hmem
      simpa using this
    simp [hcr, hrest]

theorem foldFilter_id (rs : List Char) (l : List Char)
    (h : ∀ c ∈ l, c ∉ rs) :
    rs.foldl (fun acc r => acc.filter (fun d => d ≠ r)) l = l := by
  induction rs generalizing l with
  | nil => rfl
  | cons r rest ih =>
    have hfl : l.filter (fun d => d ≠ r) = l := by
      rw [List.filter_eq_self]
      intro a ha
      have := h a ha
      simp only [List.mem_cons] at this
      push_neg at this
      simp [this.1]
    show rest.foldl _ (l.filter (fun d => d ≠ r)) = l
    rw [hfl]
    exact ih l fun c hc => fun hm => h c hc (List.mem_cons_of_mem r hm)

theorem stripSpinners_sub (l : List Char) (c : Char) (h : c ∈ stripSpinners l) : c ∈ l :=
  mem_foldFilter spinnerChars l c h

theorem stripSpinners_no_spinner (l : List Char) (c : Char) (h : c ∈ stripSpinners l) :
    c ∉ spinnerChars :=
  not_mem_of_foldFilter spinnerChars l c h

theorem stripSpinners_id (l : List Char) (h : ∀ c ∈ l, c ∉ spinnerChars) :
    stripSpinners l = l :=
  foldFilter_id spinnerChars l h

theorem splitNl_ne_nil (l : List Char) : splitNl l ≠ [] := by
  cases l with
  | nil => simp [splitNl]
  | cons c rest =>
    simp only [splitNl]
    split_ifs
    · simp
    · cases h : splitNl rest <;> simp

theorem mem_of_mem_splitNl (l : List Char) (p : List Char) (c : Char)
    (hp : p ∈ splitNl l) (hc : c ∈ p) : c ∈ l := by
  induction l generalizing p with
  | nil =>
    simp only [splitNl, List.mem_singleton] at hp
    subst hp
    cases hc
  | cons x rest ih =>
    simp only [splitNl] at hp
    split_ifs at hp with hx
    · rcases List.mem_cons.mp hp with he | hm
      · subst he
        cases hc
      · exact List.mem_cons_of_mem x (ih p hm hc)
    · cases hsp : splitNl rest with
      | nil => exact absurd hsp (splitNl_ne_nil rest)
      | cons q qs =>
        rw [hsp] at hp
        rcases List.mem_cons.mp hp with he | hm
        · subst he
          rcases List.mem_cons.mp hc with he' | hm'
          · exact he' ▸ List.mem_cons_self x rest
          · exact List.mem_cons_of_mem x (ih q (hsp ▸ List.mem_cons_self q qs) hm')
        · exact List.mem_cons_of_mem x (ih p (hsp ▸ List.mem_cons_of_mem q hm) hc)

theorem nl_not_mem_splitNl (l : List Char) (p : List Char) (hp : p ∈ splitNl l) :
    '\n' ∉ p := by
  induction l generalizing p with
  | nil =>
    simp only [splitNl, List.mem_singleton] at hp
    subst hp
    simp
  | cons x rest ih =>
    simp only [splitNl] at hp
    split_ifs at hp with hx
    · rcases List.mem_cons.mp hp with he | hm
      · subst he
        simp
      · exact ih p hm
    · cases hsp : splitNl rest with
      | nil => exact absurd hsp (splitNl_ne_nil rest)
      | cons q qs =>
        rw [hsp] at hp
        rcases List.mem_cons.mp hp with he | hm
        · subst he
          intro hmem
          rcases List.mem_cons.mp hmem with he' | hm'
          · exact hx he'.symm
          · exact ih q (hsp ▸ List.mem_cons_self q qs) hm'
        · exact ih p (hsp ▸ List.mem_cons_of_mem q hm)

theorem mem_trimRightL (p : List Char) (c : Char) (h : c ∈ trimRightL p) : c ∈ p := by
  unfold trimRightL at h
  rw [List.mem_reverse] at h
  have := (List.dropWhile_sublist isTrimWS (l := p.reverse)).mem h
  rwa [List.mem_reverse] at this

theorem mem_joinNl (ps : List (List Char)) (c : Char) (h : c ∈ joinNl ps) :
    (∃ p ∈ ps, c ∈ p) ∨ c = '\n' := by
  induction ps with
  | nil => cases h
  | cons p qs ih =>
    cases qs with
    | nil =>
      simp only [joinNl] at h
      exact Or.inl ⟨p, List.mem_singleton_self p, h⟩
    | cons q qs' =>
      simp only [joinNl] at h
      rcases List.mem_append.mp h with hp | hnl
      · exact Or.inl ⟨p, List.mem_cons_self _ _, hp⟩
      · rcases List.mem_cons.mp hnl with he | hm
        · exact Or.inr he
        · rcases ih hm with ⟨r, hr, hcr⟩ | he'
          · exact Or.inl ⟨r, List.mem_cons_of_mem p hr, hcr⟩
          · exact Or.inr he'

theorem mem_trimLinesL (l : List Char) (c : Char) (h : c ∈ trimLinesL l) :
    c ∈ l ∨ c = '\n' := by
  unfold trimLinesL at h
  rcases mem_joinNl _ c h with ⟨p', hp', hcp'⟩ | he
  · rcases List.mem_map.mp hp' with ⟨p, hp, hpe⟩
    subst hpe
    exact Or.inl (mem_of_mem_splitNl l p c hp (mem_trimRightL p c hcp'))
  · exact Or.inr he

theorem mem_collapseGo (n : Nat) (l : List Char) (c : Char) (h : c ∈ collapseGo n l) :
    c ∈ l ∨ c = '\n' := by
  induction l generalizing n with
  | nil =>
    simp only [collapseGo] at h
    exact Or.inr (List.eq_of_mem_replicate h)
  | cons x rest ih =>
    simp only [collapseGo] at h
    split_ifs at h with hx
    · rcases ih (n + 1) h with hm | he
      · exact Or.inl (List.mem_cons_of_mem x hm)
      · exact Or.inr he
    · rcases List.mem_append.mp h with hem | hm
      · exact Or.inr (List.eq_of_mem_replicate hem)
      · rcases List.mem_cons.mp hm with he | hm'
        · exact Or.inl (he ▸ List.mem_cons_self x rest)
        · rcases ih 0 hm' with hm'' | he'
          · exact Or.inl (List.mem_cons_of_mem x hm'')
          · exact Or.inr he'

theorem splitNl_head_cons (y : Char) (r : List Char) (hy : y ≠ '\n') :
    ∃ q qs, splitNl (y :: r) = (y :: q) :: qs := by
  simp only [splitNl]
  rw [if_neg hy]
  cases h : splitNl r with
  | nil => exact absurd h (splitNl_ne_nil r)
  | cons q qs => exact ⟨q, qs, rfl⟩

theorem joinNl_splitNl (l : List Char) : joinNl (splitNl l) = l := by
  induction l with
  | nil => rfl
  | cons x rest ih =>
    simp only [splitNl]
    split_ifs with hx
    · subst hx
      cases h : splitNl rest with
      | nil => exact absurd h (splitNl_ne_nil rest)
      | cons q qs =>
        show joinNl ([] :: q :: qs) = '\n' :: rest
        simp only [joinNl]
        rw [h] at ih
        simp only [List.nil_append]
        exact congrArg ('\n' :: ·) ih
    · cases h : splitNl rest with
      | nil => exact absurd h (splitNl_ne_nil rest)
      | cons q qs =>
        rw [h] at ih
        cases qs with
        | nil =>
          show joinNl [x :: q] = x :: rest
          simp only [joinNl] at ih ⊢
          exact congrArg (x :: ·) ih
        | cons q2 qs2 =>
          show joinNl ((x :: q) :: q2 :: qs2) = x :: rest
          simp only [joinNl] at ih ⊢
          rw [List.cons_append]
          exact congrArg (x :: ·) ih

theorem dropWhile_head_false (q : Char → Bool) (l : List Char) (x : Char)
    (h : (l.dropWhile q).head? = some x) : q x = false := by
  induction l with
  | nil => cases h
  | cons c rest ih =>
    simp only [List.dropWhile] at h
    cases hc : q c with
    | true =>
      simp only [hc] at h
      exact ih h
    | false =>
      simp only [hc, List.head?_cons, Option.some.injEq] at h
      subst h
      exact hc

theorem dropWhile_eq_self_of_head (q : Char → Bool) (l : List Char)
    (h : ∀ x, l.head? = some x → q x = false) : l.dropWhile q = l := by
  cases l with
  | nil => rfl
  | cons c rest =>
    have hq : q c = false := h c rfl
    simp only [List.dropWhile, hq]

theorem endsOk_trimRightL (p : List Char) : endsOk (trimRightL p) = true := by
  unfold endsOk trimRightL
  rw [List.getLast?_reverse]
  cases h : (p.reverse.dropWhile isTrimWS).head? with
  | none => rfl
  | some c => simp [dropWhile_head_false isTrimWS p.reverse c h]

theorem trimRightL_fixed (p : List Char) (h : endsOk p = true) : trimRightL p = p := by
  unfold trimRightL
  have hd : p.reverse.dropWhile isTrimWS = p.reverse := by
    apply dropWhile_eq_self_of_head
    intro x hx
    rw [List.head?_reverse] at hx
    unfold endsOk at h
    rw [hx] at h
    simpa using h
  rw [hd, List.reverse_reverse]

theorem endsOk_cons (x : Char) (q : List Char) (hq : q ≠ []) :
    endsOk (x :: q) = endsOk q := by
  unfold endsOk
  cases q with
  | nil => exact absurd rfl hq
  | cons d q' => rw [List.getLast?_cons_cons]

theorem noTrailWS_tail (c : Char) (t : List Char) (h : noTrailWS (c :: t) = true) :
    noTrailWS t = true := by
  cases t with
  | nil => rfl
  | cons d r =>
    simp only [noTrailWS, Bool.and_eq_true] at h
    exact h.2

theorem noTrailWS_piece (p : List Char) (hnl : '\n' ∉ p) (he : endsOk p = true) :
    noTrailWS p = true := by
  induction p with
  | nil => rfl
  | cons c q ih =>
    cases q with
    | nil =>
      unfold endsOk at he
      simpa [noTrailWS] using he
    | cons d q' =>
      have hd : d ≠ '\n' := fun hde =>
        hnl (hde ▸ List.mem_cons_of_mem c (List.mem_cons_self d q'))
      have htail : noTrailWS (d :: q') = true :=
        ih (fun hm => hnl (List.mem_cons_of_mem c hm))
          (by rw [← endsOk_cons c (d :: q') (by simp)]; exact he)
      simp [noTrailWS, htail, hd]

theorem noTrailWS_nl_cons (t : List Char) (ht : noTrailWS t = true) :
    noTrailWS ('\n' :: t) = true := by
  cases t with
  | nil => rfl
  | cons d r => simp [noTrailWS, ht, isTrimWS]

theorem noTrailWS_append_nl (p t : List Char) (hnl : '\n' ∉ p) (he : endsOk p = true)
    (ht : noTrailWS t = true) : noTrailWS (p ++ '\n' :: t) = true := by
  induction p with
  | nil =>
    simp only [List.nil_append]
    exact noTrailWS_nl_cons t ht
  | cons c p' ih =>
    cases p' with
    | nil =>
      have hc : isTrimWS c = false := by
        unfold endsOk at he
        simpa using he
      simpa [noTrailWS, hc] using noTrailWS_nl_cons t ht
    | cons d p'' =>
      have hd : d ≠ '\n' := fun hde =>
        hnl (hde ▸ List.mem_cons_of_mem c (List.mem_cons_self d p''))
      have htail : noTrailWS ((d :: p'') ++ '\n' :: t) = true :=
        ih (fun hm => hnl (List.mem_cons_of_mem c hm))
          (by rw [← endsOk_cons c (d :: p'') (by simp)]; exact he)
      simpa [noTrailWS, hd] using htail

theorem noTrailWS_joinNl (ps : List (List Char))
    (h : ∀ p ∈ ps, '\n' ∉ p ∧ endsOk p = true) : noTrailWS (joinNl ps) = true := by
  induction ps with
  | nil => rfl
  | cons p qs ih =>
    cases qs with
    | nil =>
      have hp := h p (List.mem_singleton_self p)
      exact noTrailWS_piece p hp.1 hp.2
    | cons q qs' =>
      simp only [joinNl]
      have hp := h p (List.mem_cons_self p _)
      exact noTrailWS_append_nl p _ hp.1 hp.2
        (ih fun r hr => h r (List.mem_cons_of_mem p hr))

theorem trimLinesL_noTrailWS (l : List Char) : noTrailWS (trimLinesL l) = true := by
  unfold trimLinesL
  apply noTrailWS_joinNl
  intro p' hp'
  rcases List.mem_map.mp hp' with ⟨p, hp, rfl⟩
  exact ⟨fun hm => nl_not_mem_splitNl l p hp (mem_trimRightL p '\n' hm),
    endsOk_trimRightL p⟩

theorem noTrailWS_pieces_endsOk (l : List Char) (h : noTrailWS l = true) :
    ∀ p ∈ splitNl l, endsOk p = true := by
  induction l with
  | nil =>
    intro p hp
    simp only [splitNl, List.mem_singleton] at hp
    subst hp
    rfl
  | cons x rest ih =>
    intro p hp
    simp only [splitNl] at hp
    split_ifs at hp with hx
    · rcases List.mem_cons.mp hp with he | hm
      · subst he
        rfl
      · exact ih (noTrailWS_tail _ _ h) p hm
    · cases rest with
      | nil =>
        simp only [splitNl, List.mem_singleton] at hp
        subst hp
        unfold endsOk
        simpa [noTrailWS] using h
      | cons y r' =>
        by_cases hy : y = '\n'
        · subst hy
          have hsp : splitNl ('\n' :: r') = [] :: splitNl r' := by
            simp [splitNl]
          rw [hsp] at hp
          rcases List.mem_cons.mp hp with he | hm
          · subst he
            unfold endsOk
            simp only [List.getLast?_singleton]
            simp only [noTrailWS, Bool.and_eq_true] at h
            simpa [isTrimWS] using h.1
          · exact ih (noTrailWS_tail _ _ h) p (hsp ▸ List.mem_cons_of_mem [] hm)
        · obtain ⟨q1, qs1, hsp⟩ := splitNl_head_cons y r' hy
          rw [hsp] at hp
          rcases List.mem_cons.mp hp with he | hm
          · subst he
            rw [endsOk_cons x (y :: q1) (by simp)]
            exact ih (noTrailWS_tail _ _ h) (y :: q1) (hsp ▸ List.mem_cons_self _ _)
          · exact ih (noTrailWS_tail _ _ h) p (hsp ▸ List.mem_cons_of_mem _ hm)

theorem trimLinesL_fixed (l : List Char) (h : noTrailWS l = true) : trimLinesL l = l := by
  unfold trimLinesL
  have hmap : (splitNl l).map trimRightL = (splitNl l).map id :=
    List.map_congr_left fun p hp => trimRightL_fixed p (noTrailWS_pieces_endsOk l h p hp)
  rw [hmap, List.map_id, joinNl_splitNl]

theorem emitNl_cases (n : Nat) :
    emitNl n = [] ∨ emitNl n = ['\n'] ∨ emitNl n = ['\n', '\n'] := by
  match n with
  | 0 => exact Or.inl rfl
  | 1 => exact Or.inr (Or.inl rfl)
  | n + 2 =>
    right; right
    unfold emitNl
    rw [show min (n + 2) 2 = 2 by omega]
    rfl

theorem noTriple_tail (a : Char) (t : List Char) (h : noTripleNl (a :: t) = true) :
    noTripleNl t = true := by
  cases t with
  | nil => rfl
  | cons b r =>
    cases r with
    | nil => rfl
    | cons c r' =>
      simp only [noTripleNl, Bool.and_eq_true] at h
      exact h.2

theorem noTriple_cons_of_ne (x : Char) (t : List Char) (hx : x ≠ '\n')
    (ht : noTripleNl t = true) : noTripleNl (x :: t) = true := by
  cases t with
  | nil => rfl
  | cons b r =>
    cases r with
    | nil => rfl
    | cons c r' => simp [noTripleNl, hx, ht]

theorem noTriple_nl_cons_of_ne (x : Char) (t : List Char) (hx : x ≠ '\n')
    (ht : noTripleNl (x :: t) = true) : noTripleNl ('\n' :: x :: t) = true := by
  cases t with
  | nil => rfl
  | cons c r' => simp [noTripleNl, hx, noTriple_tail x _ ht, ht]

theorem noTriple_emit_prefix (n : Nat) (x : Char) (t : List Char) (hx : x ≠ '\n')
    (ht : noTripleNl (x :: t) = true) : noTripleNl (emitNl n ++ x :: t) = true := by
  rcases emitNl_cases n with he | he | he <;> rw [he]
  · simpa using ht
  · exact noTriple_nl_cons_of_ne x t hx ht
  · have h1 := noTriple_nl_cons_of_ne x t hx ht
    show noTripleNl ('\n' :: '\n' :: x :: t) = true
    simp [noTripleNl, hx, h1]

theorem collapseGo_noTriple (l : List Char) : ∀ n : Nat, noTripleNl (collapseGo n l) = true := by
  induction l with
  | nil =>
    intro n
    show noTripleNl (emitNl n) = true
    rcases emitNl_cases n with he | he | he <;> rw [he] <;> rfl
  | cons x rest ih =>
    intro n
    simp only [collapseGo]
    split_ifs with hx
    · exact ih (n + 1)
    · exact noTriple_emit_prefix n x _ hx (noTriple_cons_of_ne x _ hx (ih 0))

theorem replicate_append_cons (n : Nat) (c : Char) (t : List Char) :
    List.replicate n c ++ c :: t = List.replicate (n + 1) c ++ t := by
  rw [List.replicate_succ', List.append_assoc]
  rfl

theorem noTriple_suffix (p t : List Char) (h : noTripleNl (p ++ t) = true) :
    noTripleNl t = true := by
  induction p with
  | nil => simpa using h
  | cons a p' ih => exact ih (noTriple_tail a _ h)

theorem collapseGo_fixed (l : List Char) :
    ∀ n : Nat, n ≤ 2 → noTripleNl (List.replicate n '\n' ++ l) = true →
      collapseGo n l = List.replicate n '\n' ++ l := by
  induction l with
  | nil =>
    intro n hn _
    show emitNl n = _
    unfold emitNl
    rw [min_eq_left hn, List.append_nil]
  | cons x rest ih =>
    intro n hn h
    simp only [collapseGo]
    split_ifs with hx
    · subst hx
      have hn1 : n + 1 ≤ 2 := by
        rcases Nat.lt_or_ge n 2 with h2 | h2
        · omega
        · exfalso
          have hn2 : n = 2 := by omega
          subst hn2
          simp [noTripleNl] at h
      rw [replicate_append_cons] at h ⊢
      exact ih (n + 1) hn1 h
    · have hrest : noTripleNl rest = true :=
        noTriple_tail x rest (noTriple_suffix (List.replicate n '\n') _ h)
      rw [ih 0 (by omega) (by simpa using hrest)]
      show emitNl n ++ x :: rest = _
      unfold emitNl
      rw [min_eq_left hn]

theorem collapseNlL_fixed (l : List Char) (h : noTripleNl l = true) : collapseNlL l = l := by
  have := collapseGo_fixed l 0 (by omega) (by simpa using h)
  simpa [collapseNlL] using this

theorem collapseNlL_idem (l : List Char) : collapseNlL (collapseNlL l) = collapseNlL l :=
  collapseNlL_fixed _ (collapseGo_noTriple l 0)

theorem emitNl_succ (n : Nat) : ∃ T, emitNl (n + 1) = '\n' :: T := by
  unfold emitNl
  match n with
  | 0 => exact ⟨[], rfl⟩
  | m + 1 =>
    refine ⟨['\n'], ?_⟩
    show List.replicate (min (m + 2) 2) '\n' = _
    rw [Nat.min_eq_right (by omega)]
    rfl

theorem collapseGo_nl_head (r : List Char) :
    ∀ n : Nat, ∃ T, collapseGo (n + 1) r = '\n' :: T := by
  induction r with
  | nil =>
    intro n
    exact emitNl_succ n
  | cons y r' ih =>
    intro n
    simp only [collapseGo]
    split_ifs with hy
    · exact ih (n + 1)
    · obtain ⟨T, hT⟩ := emitNl_succ n
      exact ⟨T ++ y :: collapseGo 0 r', by rw [hT]; rfl⟩

theorem noTrailWS_cons_of (x : Char) (T : List Char)
    (h0 : T = [] → isTrimWS x = false)
    (h1 : ∀ T', T = '\n' :: T' → isTrimWS x = false)
    (hT : noTrailWS T = true) : noTrailWS (x :: T) = true := by
  cases T with
  | nil => simpa [noTrailWS] using h0 rfl
  | cons d r =>
    by_cases hd : d = '\n'
    · subst hd
      simp [noTrailWS, h1 r rfl, hT]
    · simp [noTrailWS, hd, hT]

theorem noTrailWS_emit_prefix (n : Nat) (T : List Char) (hT : noTrailWS T = true) :
    noTrailWS (emitNl n ++ T) = true := by
  rcases emitNl_cases n with he | he | he <;> rw [he]
  · simpa using hT
  · exact noTrailWS_nl_cons T hT
  · exact noTrailWS_nl_cons _ (noTrailWS_nl_cons T hT)

theorem noTrailWS_collapseGo (l : List Char) :
    ∀ n : Nat, noTrailWS l = true → noTrailWS (collapseGo n l) = true := by
  induction l with
  | nil =>
    intro n _
    show noTrailWS (emitNl n) = true
    rcases emitNl_cases n with he | he | he <;> rw [he] <;> rfl
  | cons x rest ih =>
    intro n h
    simp only [collapseGo]
    split_ifs with hx
    · exact ih (n + 1) (noTrailWS_tail x rest h)
    · apply noTrailWS_emit_prefix
      cases rest with
      | nil => simpa using h
      | cons y r' =>
        by_cases hy : y = '\n'
        · subst hy
          obtain ⟨T', hT'⟩ := collapseGo_nl_head r' 0
          have hco : collapseGo 0 ('\n' :: r') = '\n' :: T' := by
            simpa [collapseGo] using hT'
          rw [hco]
          apply noTrailWS_cons_of x ('\n' :: T') (by simp)
          · intro _ _
            simp only [noTrailWS, Bool.and_eq_true] at h
            have := h.1
            simp only [Bool.not_eq_true', Bool.and_eq_false_iff] at this
            rcases this with h' | h'
            · exact h'
            · simp at h'
          · rw [← hco]
            exact ih 0 (noTrailWS_tail x _ h)
        · have hco : collapseGo 0 (y :: r') = y :: collapseGo 0 r' := by
            simp only [collapseGo]
            rw [if_neg hy]
            rfl
          rw [hco]
          apply noTrailWS_cons_of x (y :: collapseGo 0 r') (by simp)
          · intro T' hT'
            exact absurd (List.cons_eq_cons.mp hT').1 hy
          · rw [← hco]
            exact ih 0 (noTrailWS_tail x _ h)

theorem paren_free_stripAnsi (l : List Char) (hp : '(' ∉ l) :
    '(' ∉ stripAnsiGo .text l := fun hm => by
  rcases mem_stripAnsiGo .text l '(' hm with h | h
  · exact hp h
  · exact absurd h (by decide)

theorem normalizeContentL_idem (l : List Char) (hp : '(' ∉ l) :
    normalizeContentL (normalizeContentL l) = normalizeContentL l := by
  have hpfA : '(' ∉ stripAnsiGo .text l := paren_free_stripAnsi l hp
  have hpfC : '(' ∉ stripControlChars (stripAnsiGo .text l) := fun hm =>
    hpfA (List.mem_of_mem_filter hm)
  have hpfSp : '(' ∉ stripSpinners (stripControlChars (stripAnsiGo .text l)) := fun hm =>
    hpfC (stripSpinners_sub _ '(' hm)
  have hD : dynamicReplaceL (stripSpinners (stripControlChars (stripAnsiGo .text l))) =
      stripSpinners (stripControlChars (stripAnsiGo .text l)) := dynamicReplaceL_id _ hpfSp
  have hTh : thinkingReplaceL (stripSpinners (stripControlChars (stripAnsiGo .text l))) =
      stripSpinners (stripControlChars (stripAnsiGo .text l)) := thinkingReplaceL_id _ hpfSp
  have hy : normalizeContentL l =
      collapseNlL (trimLinesL (stripSpinners (stripControlChars (stripAnsiGo .text l)))) := by
    unfold normalizeContentL
    rw [hD, hTh]
  have hmem : ∀ c ∈ normalizeContentL l,
      c = '\n' ∨ c ∈ stripSpinners (stripControlChars (stripAnsiGo .text l)) := by
    intro c hc
    rw [hy] at hc
    rcases mem_collapseGo 0 _ c hc with hc2 | he
    · rcases mem_trimLinesL _ c hc2 with hc3 | he
      · exact Or.inr hc3
      · exact Or.inl he
    · exact Or.inl he
  have hkeep : ∀ c ∈ normalizeContentL l, keepChar c = true := by
    intro c hc
    rcases hmem c hc with he | hm
    · subst he
      decide
    · exact (List.mem_filter.mp (stripSpinners_sub _ c hm)).2
  have hesc : ∀ c ∈ normalizeContentL l, c ≠ '\x1b' ∧ isC1Code c = false := by
    intro c hc
    rcases hmem c hc with he | hm
    · subst he
      exact ⟨by decide, by decide⟩
    · have hcC := stripSpinners_sub _ c hm
      have hcA := List.mem_of_mem_filter hcC
      refine ⟨?_, not_c1_stripAnsiGo .text l c hcA⟩
      intro he
      subst he
      have := (List.mem_filter.mp hcC).2
      exact absurd this (by decide)
  have hnospin : ∀ c ∈ normalizeContentL l, c ∉ spinnerChars := by
    intro c hc
    rcases hmem c hc with he | hm
    · subst he
      decide
    · exact stripSpinners_no_spinner _ c hm
  have hpfY : '(' ∉ normalizeContentL l := by
    intro hc
    rcases hmem '(' hc with he | hm
    · exact absurd he (by decide)
    · exact hpfSp hm
  have hA2 : stripAnsiGo .text (normalizeContentL l) = normalizeContentL l :=
    stripAnsiGo_id _ hesc
  have hC2 : stripControlChars (normalizeContentL l) = normalizeContentL l := by
    unfold stripControlChars
    rw [List.filter_eq_self]
    intro c hc
    exact hkeep c hc
  have hSp2 : stripSpinners (normalizeContentL l) = normalizeContentL l :=
    stripSpinners_id _ hnospin
  have hD2 : dynamicReplaceL (normalizeContentL l) = normalizeContentL l :=
    dynamicReplaceL_id _ hpfY
  have hTh2 : thinkingReplaceL (normalizeContentL l) = normalizeContentL l :=
    thinkingReplaceL_id _ hpfY
  have hT2 : trimLinesL (normalizeContentL l) = normalizeContentL l := by
    apply trimLinesL_fixed
    rw [hy]
    exact noTrailWS_collapseGo _ 0 (trimLinesL_noTrailWS _)
  have hB2 : collapseNlL (normalizeContentL l) = normalizeContentL l := by
    apply collapseNlL_fixed
    rw [hy]
    exact collapseGo_noTriple _ 0
  have houter : ∀ m : List Char, normalizeContentL m =
      collapseNlL (trimLinesL (thinkingReplaceL (dynamicReplaceL
        (stripSpinners (stripControlChars (stripAnsiGo .text m)))))) := fun m => rfl
  rw [houter (normalizeContentL l), hA2, hC2, hSp2, hD2, hTh2, hT2, hB2]

/-- C6 (amended): content normalization is idempotent on every input string
that contains no `(` character. (In general it is not idempotent: the
thinking-header and status-counter regex replacements can create fresh matches
on a second pass, as the counterexample shows.) -/
theorem c6_normalize_idempotent_paren_free (x : String) (h : ('(' : Char) ∉ x.toList) :
    normalizeContent (normalizeContent x) = normalizeContent x := by
  show (normalizeContentL (normalizeContentL x.toList).asString.toList).asString = _
  rw [toList_asString]
  exact congrArg List.asString (normalizeContentL_idem x.toList h)

theorem c6_normalize_idempotent_paren_free_witness :
    ('(' : Char) ∉ "Thinking hard\x1b[31m\n\n\n\n  done  ".toList ∧
    normalizeContent (normalizeContent "Thinking hard\x1b[31m\n\n\n\n  done  ") =
      normalizeContent "Thinking hard\x1b[31m\n\n\n\n  done  " :=
  ⟨by decide, c6_normalize_idempotent_paren_free _ (by decide)⟩

end AgentDeck
